import Mathlib

/-!
Shallow embedding of `googlesearch/__init__.py` (Ouroborosrex/googlesearch).

The repository is a single module with:
  * `format_date` / `get_date_range_tbs` — date-range filter construction;
  * `_req` — one HTTP GET per page (transport, abstracted here);
  * `search` — the pagination / parse / yield loop.

External collaborators (the HTTP transport, BeautifulSoup, `dateutil`,
`urllib.parse.unquote`) are not part of the repository's sources; where a
claim depends on them they are modelled from the specification's words, and
each such definition says so in its doc comment.  Everything else is a direct
translation of the Python source.
-/

namespace Googlesearch

instance {ε α : Type} [DecidableEq ε] [DecidableEq α] : DecidableEq (Except ε α) :=
  fun x y =>
    match x, y with
    | .error a, .error b => decidable_of_iff (a = b) (by simp)
    | .error _, .ok _ => isFalse (fun h => Except.noConfusion h)
    | .ok _, .error _ => isFalse (fun h => Except.noConfusion h)
    | .ok a, .ok b => decidable_of_iff (a = b) (by simp)

/-! ## Character and token helpers -/

/-- A calendar date as carried by the date helpers (no time-of-day). -/
structure Date where
  month : Nat
  day : Nat
  year : Nat
deriving DecidableEq

/-- Splits a character list on a separator character.  Mirrors Python's
`str.split(sep)` (and is also used for `"..".split("&")[0]` via `headD`):
the result is always nonempty, and separators are not kept. -/
def splitChar (sep : Char) : List Char → List (List Char)
  | [] => [[]]
  | c :: cs =>
    let r := splitChar sep cs
    if c = sep then [] :: r
    else (c :: r.headD []) :: r.tail

/-- Decimal digit test ('0'..'9'). -/
def isDigitChar (c : Char) : Bool := '0' ≤ c && c ≤ '9'

/-- Value of a decimal digit character. -/
def digitVal (c : Char) : Nat := c.toNat - '0'.toNat

/-- Reads a token made only of decimal digits; `none` otherwise.
Models the numeric-token reading of the external date parser. -/
def numToken (t : List Char) : Option Nat :=
  if !t.isEmpty && t.all isDigitChar then
    some (t.foldl (fun a c => a * 10 + digitVal c) 0)
  else none

/-! ## Date parsing (modelled) -/

/-- Leap-year test of the Gregorian calendar. -/
def isLeapYear (y : Nat) : Bool :=
  (y % 4 == 0 && y % 100 != 0) || y % 400 == 0

/-- Number of days of month `m` in year `y`. -/
def daysInMonth (y m : Nat) : Nat :=
  if m = 2 then (if isLeapYear y then 29 else 28)
  else if m = 4 ∨ m = 6 ∨ m = 9 ∨ m = 11 then 30
  else 31

/-- Calendar validity of a `Date` (the model only produces years up to 9999,
which is also what four-digit year tokens can carry). -/
def validDate (d : Date) : Bool :=
  1 ≤ d.month && d.month ≤ 12 && 1 ≤ d.day && d.day ≤ daysInMonth d.year d.month
    && d.year ≤ 9999

/-- Builds a `Date` after validating it against the calendar. -/
def mkDate (m d y : Nat) : Option Date :=
  if validDate ⟨m, d, y⟩ then some ⟨m, d, y⟩ else none

/-- Full month names, January first. -/
def monthNames : List String :=
  ["January", "February", "March", "April", "May", "June", "July",
   "August", "September", "October", "November", "December"]

/-- Month number (1-12) from a full month name. -/
def monthFromName (t : List Char) : Option Nat :=
  (monthNames.findIdx? (fun n => n.data == t)).map (· + 1)

/-- Reads three numeric tokens as a date: a four-digit first token is a year
(`yyyy-mm-dd`), otherwise the order is month-first (`mm-dd-yyyy`, the US
default order of the external parser) with a four-digit year token. -/
def parseNumericTokens (t1 t2 t3 : List Char) : Option Date :=
  if t1.length = 4 then
    match numToken t1, numToken t2, numToken t3 with
    | some y, some m, some d => mkDate m d y
    | _, _, _ => none
  else if t3.length = 4 then
    match numToken t1, numToken t2, numToken t3 with
    | some m, some d, some y => mkDate m d y
    | _, _, _ => none
  else none

/-- Reads the `"October 20, 2004"` form: month name, day with a trailing
comma, four-digit year. -/
def parseMonthName (cs : List Char) : Option Date :=
  match splitChar ' ' cs with
  | [mt, dt, yt] =>
    match monthFromName mt with
    | some m =>
      if dt.getLast? == some ',' then
        match numToken dt.dropLast, numToken yt with
        | some d, some y => if yt.length = 4 then mkDate m d y else none
        | _, _ => none
      else none
    | none => none
  | _ => none

/-- Second stage of date parsing: three `/`-separated tokens are a numeric
date, anything else is tried as the month-name form. -/
def parseSlashSplit : List (List Char) → List Char → Option Date
  | [t1, t2, t3], _ => parseNumericTokens t1 t2 t3
  | _, cs => parseMonthName cs

/-- First stage of date parsing: three `-`-separated tokens are a numeric
date, anything else falls through to the `/`-separated stage. -/
def parseDashSplit : List (List Char) → List Char → Option Date
  | [t1, t2, t3], _ => parseNumericTokens t1 t2 t3
  | _, cs => parseSlashSplit (splitChar '/' cs) cs

/-- Modelled from the spec: the external date parser used by `format_date`
(`dateutil.parser.parse` is not part of this repository's sources).  The spec
says the formatter "accepts common date textual forms (e.g. `10-20-2004`,
`2004-10-20`, `October 20, 2004`)"; the model accepts exactly those shapes —
numeric dates separated by `-` or `/` in `mm-dd-yyyy` or `yyyy-mm-dd` order,
and the month-name form — validating against the real calendar, and fails
(`none`) on anything else, in particular on the empty string. -/
def parseDateChars (cs : List Char) : Option Date :=
  parseDashSplit (splitChar '-' cs) cs

/-! ## Date formatting (`format_date`, `get_date_range_tbs`) -/

/-- Two zero-padded decimal digits of `n < 100` (the `%m` / `%d` fields of
`strftime`). -/
def pad2Chars (n : Nat) : List Char :=
  [Nat.digitChar (n / 10), Nat.digitChar (n % 10)]

/-- Four zero-padded decimal digits of `n < 10000` (the `%Y` field of
`strftime` for the years the model produces). -/
def pad4Chars (n : Nat) : List Char :=
  pad2Chars (n / 100) ++ pad2Chars (n % 100)

/-- Character content of `dt.strftime("%m/%d/%Y")`. -/
def formatChars (d : Date) : List Char :=
  pad2Chars d.month ++ '/' :: (pad2Chars d.day ++ '/' :: pad4Chars d.year)

/-- The string `dt.strftime("%m/%d/%Y")`. -/
def strftime_mdY (d : Date) : String := ⟨formatChars d⟩

/-- Translation of `format_date`: parse the input, return it as
`mm/dd/yyyy`; on a parse failure raise `ValueError` carrying the original
input (the `Except.error` case). -/
def format_date (date_input : String) : Except String String :=
  match parseDateChars date_input.data with
  | some dt => .ok (strftime_mdY dt)
  | none => .error ("Could not parse date input: " ++ date_input)

/-- Python truthiness of an optional string: `None` and `""` are falsy.
The source tests `if start_date or end_date:` and `if not start_date:`. -/
def truthy : Option String → Bool
  | none => false
  | some s => s != ""

/-- Translation of `get_date_range_tbs`: if either bound is truthy, default
the missing one to the other (sequentially, as in the source), format both,
and build the `cdr:1,cd_min:..,cd_max:..` token; otherwise `None`. -/
def get_date_range_tbs (start_date end_date : Option String) :
    Except String (Option String) :=
  if truthy start_date || truthy end_date then
    let start_date' := if truthy start_date then start_date else end_date
    let end_date' := if truthy end_date then end_date else start_date'
    match format_date (start_date'.getD "") with
    | .error e => .error e
    | .ok start_fmt =>
      match format_date (end_date'.getD "") with
      | .error e => .error e
      | .ok end_fmt =>
        .ok (some ("cdr:1,cd_min:" ++ start_fmt ++ ",cd_max:" ++ end_fmt))
  else .ok none

example : format_date "2004-10-20" = .ok "10/20/2004" := by decide
example : format_date "10-20-2004" = .ok "10/20/2004" := by decide
example : format_date "October 20, 2004" = .ok "10/20/2004" := by decide
example : format_date "10/20/2004" = .ok "10/20/2004" := by decide
example : format_date "" = .error "Could not parse date input: " := by decide
example : format_date "2004-02-30" =
    .error "Could not parse date input: 2004-02-30" := by decide
example : get_date_range_tbs (some "2004-10-20") none =
    .ok (some "cdr:1,cd_min:10/20/2004,cd_max:10/20/2004") := by decide
example : get_date_range_tbs none none = .ok none := by decide
example : get_date_range_tbs (some "") none = .ok none := by decide

/-! ## Result parsing (per-container extraction) -/

/-- Hex digit value (both cases), as used by percent-decoding. -/
def hexVal? (c : Char) : Option Nat :=
  if '0' ≤ c ∧ c ≤ '9' then some (c.toNat - '0'.toNat)
  else if 'a' ≤ c ∧ c ≤ 'f' then some (c.toNat - 'a'.toNat + 10)
  else if 'A' ≤ c ∧ c ≤ 'F' then some (c.toNat - 'A'.toNat + 10)
  else none

/-- Modelled from the spec: `urllib.parse.unquote` (external standard
library, not part of this repository's sources) — the spec's
"percent-decodes the remainder".  A `%` followed by two hex digits becomes
the character with that code; a malformed escape is left in place.  The
model works at character level (exact for the ASCII range). -/
def unquoteChars : List Char → List Char
  | '%' :: a :: b :: rest =>
    match hexVal? a, hexVal? b with
    | some ha, some hb => Char.ofNat (16 * ha + hb) :: unquoteChars rest
    | _, _ => '%' :: unquoteChars (a :: b :: rest)
  | c :: rest => c :: unquoteChars rest
  | [] => []

/-- Removes occurrences of a (nonempty) pattern, scanning left to right,
with fuel bounding the scan length.  Embeds Python's
`str.replace(pat, "")`, which replaces every occurrence. -/
def removeAllAux (pat : List Char) : Nat → List Char → List Char
  | _, [] => []
  | 0, cs => cs
  | fuel + 1, c :: rest =>
    if pat.isPrefixOf (c :: rest) then
      removeAllAux pat fuel ((c :: rest).drop pat.length)
    else c :: removeAllAux pat fuel rest

/-- Python's `cs.replace(pat, "")` for a nonempty pattern. -/
def removeAll (pat cs : List Char) : List Char :=
  removeAllAux pat cs.length cs

/-- Translation of the source's URL recovery
`unquote(link_tag["href"].split("&")[0].replace("/url?q=", ""))`. -/
def extractLink (href : String) : String :=
  ⟨unquoteChars (removeAll "/url?q=".data ((splitChar '&' href.data).headD []))⟩

example : extractLink "/url?q=http%3A%2F%2Fa.com%2Fx&sa=U" = "http://a.com/x" := by
  decide
example : extractLink "http://e.com/url?q=abc" = "http://e.comabc" := by decide

/-- One result container as delivered by the (external, abstracted) HTML
parser: the href of the first anchor that has one, the text of the title
span nested in that anchor, and the text of the description span — each
`none` when the element is missing. -/
structure Container where
  href : Option String
  titleSpan : Option String
  descr : Option String
deriving DecidableEq

/-- Translation of the `SearchResult` record class. -/
structure SearchResult where
  url : String
  title : String
  description : String
deriving DecidableEq

/-- What one loop iteration yields: a `SearchResult` when `advanced`, else
the bare URL string. -/
inductive Yielded where
  | result (r : SearchResult)
  | url (u : String)
deriving DecidableEq

/-- The URL carried by a yielded element. -/
def yieldedUrl : Yielded → String
  | .result r => r.url
  | .url u => u

/-- The `link` local of the loop body: extraction when an anchor with an
href exists, `""` otherwise. -/
def containerLink (c : Container) : String :=
  match c.href with
  | some h => extractLink h
  | none => ""

/-- The `title` local: `title_tag.text` when the anchor exists and carries
the title span, `""` otherwise. -/
def containerTitle (c : Container) : String :=
  match c.href, c.titleSpan with
  | some _, some t => t
  | _, _ => ""

/-- The `description` local: the description span's text or `""`. -/
def containerDescr (c : Container) : String := c.descr.getD ""

/-- What the loop body yields for a non-skipped container. -/
def mkYield (advanced : Bool) (c : Container) : Yielded :=
  if advanced then Yielded.result ⟨containerLink c, containerTitle c, containerDescr c⟩
  else Yielded.url (containerLink c)

/-- `fetched_links.add(link)` — set insertion on the list that models the
session's seen-URL set. -/
def addLink (links : List String) (l : String) : List String :=
  if l ∈ links then links else l :: links

/-! ## The pagination loop -/

/-- State and output of processing one page's `result_block`. -/
structure PageResult where
  ys : List Yielded
  fetched : Nat
  links : List String
  newRes : Nat
deriving DecidableEq

/-- Translation of the inner `for result in result_block:` loop.  Arguments
after the container list are the `fetched_results` count, the
`fetched_links` set and the `new_results` count.  A result whose link is
already seen is skipped when `unique`; otherwise the link is added, both
counters move, the element is yielded, and the page stops as soon as
`fetched_results >= num_results`. -/
def processPage (advanced uniq : Bool) (numResults : Nat) :
    List Container → Nat → List String → Nat → PageResult
  | [], fetchedResults, fetchedLinks, newResults =>
    ⟨[], fetchedResults, fetchedLinks, newResults⟩
  | c :: rest, fetchedResults, fetchedLinks, newResults =>
    if containerLink c ∈ fetchedLinks ∧ uniq = true then
      processPage advanced uniq numResults rest fetchedResults fetchedLinks newResults
    else if numResults ≤ fetchedResults + 1 then
      ⟨[mkYield advanced c], fetchedResults + 1,
        addLink fetchedLinks (containerLink c), newResults + 1⟩
    else
      let pr := processPage advanced uniq numResults rest (fetchedResults + 1)
        (addLink fetchedLinks (containerLink c)) (newResults + 1)
      ⟨mkYield advanced c :: pr.ys, pr.fetched, pr.links, pr.newRes⟩

/-- Final state of a terminated run of the `while` loop. -/
structure RunResult where
  yields : List Yielded
  fetched : Nat
  links : List String
deriving DecidableEq

/-- Translation of the `while fetched_results < num_results:` loop.  `pages`
abstracts `_req` + HTML parsing: the ordered containers the remote returns
for a given `start` offset (every transport-level parameter only shapes
that map).  `fuel` bounds the number of iterations the model is willing to
unfold; `none` means the fuel ran out before the loop finished, and the
termination theorem shows `numResults + 1` iterations always suffice from
the initial state.  A page that contributes no new result ends the loop
(graceful exhaustion); otherwise `start` advances by 10. -/
def searchLoop (pages : Nat → List Container) (advanced uniq : Bool)
    (numResults : Nat) : Nat → Nat → Nat → List String → Option RunResult
  | 0, _, _, _ => none
  | fuel + 1, start, fetchedResults, fetchedLinks =>
    if fetchedResults < numResults then
      let pr := processPage advanced uniq numResults (pages start) fetchedResults
        fetchedLinks 0
      if pr.newRes = 0 then some ⟨pr.ys, pr.fetched, pr.links⟩
      else
        match searchLoop pages advanced uniq numResults fuel (start + 10)
            pr.fetched pr.links with
        | none => none
        | some r => some ⟨pr.ys ++ r.yields, r.fetched, r.links⟩
    else some ⟨[], fetchedResults, fetchedLinks⟩

/-- Translation of `search`: resolve the date filter first (a formatting
failure propagates before any page is requested — the result then does not
depend on `pages` at all), then run the pagination loop from
`start = start_num`, `fetched_results = 0`, `fetched_links = set()`.  The
filter token itself only shapes the outgoing request, i.e. the `pages`
map, so it is not re-consumed here.  Transport-only parameters (language,
proxy, sleep interval, timeout, safe mode, TLS flag, region) are absorbed
into `pages`. -/
def search (pages : Nat → List Container) (num_results : Nat)
    (advanced uniq : Bool) (start_num : Nat)
    (start_date end_date : Option String) : Except String (List Yielded) :=
  match get_date_range_tbs start_date end_date with
  | .error e => .error e
  | .ok _tbs =>
    match searchLoop pages advanced uniq num_results (num_results + 1)
        start_num 0 [] with
    | some r => .ok r.yields
    | none => .ok []

example :
    search (fun off => if off = 0 then
        [⟨some "ua", some "A", some "da"⟩, ⟨some "ub", none, none⟩] else [])
      10 false false 0 none none = .ok [.url "ua", .url "ub"] := by decide

example :
    search (fun _ => [⟨some "ua", none, none⟩, ⟨some "ub", none, none⟩,
        ⟨some "uc", none, none⟩]) 5 false true 0 none none =
      .ok [.url "ua", .url "ub", .url "uc"] := by decide

example :
    search (fun _ => [⟨some "ua", none, none⟩]) 3 true false 0 none none =
      .ok [.result ⟨"ua", "", ""⟩, .result ⟨"ua", "", ""⟩, .result ⟨"ua", "", ""⟩] := by
  decide

/-! ## Loop lemmas -/

theorem mem_addLink {x s : String} {l : List String} :
    x ∈ addLink l s ↔ x ∈ l ∨ x = s := by
  by_cases h : s ∈ l
  · simp only [addLink, if_pos h]
    exact ⟨Or.inl, fun h' => h'.elim id (fun e => e ▸ h)⟩
  · simp only [addLink, if_neg h, List.mem_cons]
    exact or_comm

theorem yieldedUrl_mkYield (advanced : Bool) (c : Container) :
    yieldedUrl (mkYield advanced c) = containerLink c := by
  cases advanced <;> simp [mkYield, yieldedUrl]

/-- The two counters of the page loop move in lockstep. -/
theorem processPage_lockstep (advanced uniq : Bool) (n : Nat) :
    ∀ (rs : List Container) (f : Nat) (links : List String) (k : Nat),
      (processPage advanced uniq n rs f links k).fetched + k =
        f + (processPage advanced uniq n rs f links k).newRes := by
  intro rs
  induction rs with
  | nil => intro f links k; simp [processPage]
  | cons c rest ih =>
    intro f links k
    simp only [processPage]
    by_cases hskip : containerLink c ∈ links ∧ uniq = true
    · rw [if_pos hskip]; exact ih f links k
    · rw [if_neg hskip]
      by_cases hbr : n ≤ f + 1
      · rw [if_pos hbr]; dsimp only; omega
      · rw [if_neg hbr]
        have := ih (f + 1) (addLink links (containerLink c)) (k + 1)
        dsimp only
        omega

/-- Every yield bumps `new_results` by one. -/
theorem processPage_len (advanced uniq : Bool) (n : Nat) :
    ∀ (rs : List Container) (f : Nat) (links : List String) (k : Nat),
      (processPage advanced uniq n rs f links k).ys.length + k =
        (processPage advanced uniq n rs f links k).newRes := by
  intro rs
  induction rs with
  | nil => intro f links k; simp [processPage]
  | cons c rest ih =>
    intro f links k
    simp only [processPage]
    by_cases hskip : containerLink c ∈ links ∧ uniq = true
    · rw [if_pos hskip]; exact ih f links k
    · rw [if_neg hskip]
      by_cases hbr : n ≤ f + 1
      · rw [if_pos hbr]; dsimp only; simp only [List.length_singleton]; omega
      · rw [if_neg hbr]
        have := ih (f + 1) (addLink links (containerLink c)) (k + 1)
        dsimp only
        simp only [List.length_cons]
        omega

/-- Once below the cap, a page never pushes `fetched_results` past it. -/
theorem processPage_cap (advanced uniq : Bool) (n : Nat) :
    ∀ (rs : List Container) (f : Nat) (links : List String) (k : Nat), f < n →
      (processPage advanced uniq n rs f links k).fetched ≤ n := by
  intro rs
  induction rs with
  | nil => intro f links k hf; simp [processPage]; omega
  | cons c rest ih =>
    intro f links k hf
    simp only [processPage]
    by_cases hskip : containerLink c ∈ links ∧ uniq = true
    · rw [if_pos hskip]; exact ih f links k hf
    · rw [if_neg hskip]
      by_cases hbr : n ≤ f + 1
      · rw [if_pos hbr]; dsimp only; omega
      · rw [if_neg hbr]
        exact ih (f + 1) (addLink links (containerLink c)) (k + 1) (by omega)

/-- The seen-URL set only grows. -/
theorem processPage_links_mono (advanced uniq : Bool) (n : Nat) :
    ∀ (rs : List Container) (f : Nat) (links : List String) (k : Nat) (u : String),
      u ∈ links → u ∈ (processPage advanced uniq n rs f links k).links := by
  intro rs
  induction rs with
  | nil => intro f links k u hu; simpa [processPage] using hu
  | cons c rest ih =>
    intro f links k u hu
    simp only [processPage]
    by_cases hskip : containerLink c ∈ links ∧ uniq = true
    · rw [if_pos hskip]; exact ih f links k u hu
    · rw [if_neg hskip]
      by_cases hbr : n ≤ f + 1
      · rw [if_pos hbr]; exact mem_addLink.mpr (Or.inl hu)
      · rw [if_neg hbr]
        exact ih (f + 1) _ (k + 1) u (mem_addLink.mpr (Or.inl hu))

/-- Every URL a page yields ends up in the seen-URL set. -/
theorem processPage_yield_links (advanced uniq : Bool) (n : Nat) :
    ∀ (rs : List Container) (f : Nat) (links : List String) (k : Nat),
      ∀ y ∈ (processPage advanced uniq n rs f links k).ys,
        yieldedUrl y ∈ (processPage advanced uniq n rs f links k).links := by
  intro rs
  induction rs with
  | nil => intro f links k y hy; simp [processPage] at hy
  | cons c rest ih =>
    intro f links k y hy
    simp only [processPage] at hy ⊢
    by_cases hskip : containerLink c ∈ links ∧ uniq = true
    · rw [if_pos hskip] at hy ⊢; exact ih f links k y hy
    · rw [if_neg hskip] at hy ⊢
      by_cases hbr : n ≤ f + 1
      · rw [if_pos hbr] at hy ⊢
        have : y = mkYield advanced c := by simpa using hy
        subst this
        rw [yieldedUrl_mkYield]
        exact mem_addLink.mpr (Or.inr rfl)
      · rw [if_neg hbr] at hy ⊢
        dsimp only at hy ⊢
        rcases List.mem_cons.mp hy with rfl | hy'
        · rw [yieldedUrl_mkYield]
          exact processPage_links_mono advanced uniq n rest (f + 1) _ (k + 1) _
            (mem_addLink.mpr (Or.inr rfl))
        · exact ih (f + 1) _ (k + 1) y hy'

/-- With `unique=true` a page yields pairwise distinct URLs, none of which
was in the seen-URL set it started from. -/
theorem processPage_unique (advanced : Bool) (n : Nat) :
    ∀ (rs : List Container) (f : Nat) (links : List String) (k : Nat),
      ((processPage advanced true n rs f links k).ys.map yieldedUrl).Nodup ∧
      ∀ u ∈ (processPage advanced true n rs f links k).ys.map yieldedUrl,
        u ∉ links := by
  intro rs
  induction rs with
  | nil => intro f links k; simp [processPage]
  | cons c rest ih =>
    intro f links k
    simp only [processPage]
    by_cases hm : containerLink c ∈ links
    · rw [if_pos (show containerLink c ∈ links ∧ True from ⟨hm, trivial⟩)]
      exact ih f links k
    · rw [if_neg (show ¬(containerLink c ∈ links ∧ True) from fun h => hm h.1)]
      by_cases hbr : n ≤ f + 1
      · rw [if_pos hbr]
        constructor
        · simp
        · intro u hu
          have : u = containerLink c := by
            simpa [yieldedUrl_mkYield] using hu
          subst this; exact hm
      · rw [if_neg hbr]
        obtain ⟨ihn, ihf⟩ := ih (f + 1) (addLink links (containerLink c)) (k + 1)
        dsimp only
        simp only [List.map_cons, List.nodup_cons, yieldedUrl_mkYield, List.mem_cons]
        refine ⟨⟨fun hin => ?_, ihn⟩, fun u hu => ?_⟩
        · exact ihf _ hin (mem_addLink.mpr (Or.inr rfl))
        · rcases hu with rfl | hu'
          · exact hm
          · exact fun hl => ihf u hu' (mem_addLink.mpr (Or.inl hl))

/-- In plain mode every yielded element is a bare URL string. -/
theorem processPage_url_shape (uniq : Bool) (n : Nat) :
    ∀ (rs : List Container) (f : Nat) (links : List String) (k : Nat),
      ∀ y ∈ (processPage false uniq n rs f links k).ys, ∃ u, y = Yielded.url u := by
  intro rs
  induction rs with
  | nil => intro f links k y hy; simp [processPage] at hy
  | cons c rest ih =>
    intro f links k y hy
    simp only [processPage] at hy
    by_cases hskip : containerLink c ∈ links ∧ uniq = true
    · rw [if_pos hskip] at hy; exact ih f links k y hy
    · rw [if_neg hskip] at hy
      by_cases hbr : n ≤ f + 1
      · rw [if_pos hbr] at hy
        have : y = mkYield false c := by simpa using hy
        subst this
        exact ⟨containerLink c, by simp [mkYield]⟩
      · rw [if_neg hbr] at hy
        dsimp only at hy
        rcases List.mem_cons.mp hy with rfl | hy'
        · exact ⟨containerLink c, by simp [mkYield]⟩
        · exact ih (f + 1) _ (k + 1) y hy'

/-- Every yielded URL is the link extracted from one of the page's
containers. -/
theorem processPage_origin (advanced uniq : Bool) (n : Nat) :
    ∀ (rs : List Container) (f : Nat) (links : List String) (k : Nat),
      ∀ y ∈ (processPage advanced uniq n rs f links k).ys,
        ∃ c ∈ rs, yieldedUrl y = containerLink c := by
  intro rs
  induction rs with
  | nil => intro f links k y hy; simp [processPage] at hy
  | cons c rest ih =>
    intro f links k y hy
    simp only [processPage] at hy
    by_cases hskip : containerLink c ∈ links ∧ uniq = true
    · rw [if_pos hskip] at hy
      obtain ⟨c', hc', he⟩ := ih f links k y hy
      exact ⟨c', List.mem_cons_of_mem _ hc', he⟩
    · rw [if_neg hskip] at hy
      by_cases hbr : n ≤ f + 1
      · rw [if_pos hbr] at hy
        have : y = mkYield advanced c := by simpa using hy
        subst this
        exact ⟨c, List.mem_cons_self _ _, yieldedUrl_mkYield advanced c⟩
      · rw [if_neg hbr] at hy
        dsimp only at hy
        rcases List.mem_cons.mp hy with rfl | hy'
        · exact ⟨c, List.mem_cons_self _ _, yieldedUrl_mkYield advanced c⟩
        · obtain ⟨c', hc', he⟩ := ih (f + 1) _ (k + 1) y hy'
          exact ⟨c', List.mem_cons_of_mem _ hc', he⟩

/-- With `unique=false` the page's yields and counters do not depend on the
contents of the seen-URL set: the skip test can never fire. -/
theorem processPage_indep (advanced : Bool) (n : Nat) :
    ∀ (rs : List Container) (f : Nat) (a b : List String) (k : Nat),
      (processPage advanced false n rs f a k).ys =
        (processPage advanced false n rs f b k).ys ∧
      (processPage advanced false n rs f a k).fetched =
        (processPage advanced false n rs f b k).fetched ∧
      (processPage advanced false n rs f a k).newRes =
        (processPage advanced false n rs f b k).newRes := by
  intro rs
  induction rs with
  | nil => intro f a b k; simp [processPage]
  | cons c rest ih =>
    intro f a b k
    simp only [processPage]
    rw [if_neg (show ¬(containerLink c ∈ a ∧ false = true) from fun h => Bool.noConfusion h.2),
      if_neg (show ¬(containerLink c ∈ b ∧ false = true) from fun h => Bool.noConfusion h.2)]
    by_cases hbr : n ≤ f + 1
    · rw [if_pos hbr, if_pos hbr]; exact ⟨rfl, rfl, rfl⟩
    · rw [if_neg hbr, if_neg hbr]
      obtain ⟨h1, h2, h3⟩ := ih (f + 1) (addLink a (containerLink c))
        (addLink b (containerLink c)) (k + 1)
      dsimp only
      exact ⟨by rw [h1], h2, h3⟩

/-- A page of enough fresh, pairwise distinct links drives
`fetched_results` exactly to the cap. -/
theorem processPage_fresh_exact (advanced uniq : Bool) (n : Nat) :
    ∀ (rs : List Container) (f : Nat) (links : List String) (k : Nat),
      f < n → n ≤ f + rs.length → (rs.map containerLink).Nodup →
      (∀ c ∈ rs, containerLink c ∉ links) →
      (processPage advanced uniq n rs f links k).fetched = n := by
  intro rs
  induction rs with
  | nil => intro f links k hf hlen _ _; simp at hlen; omega
  | cons c rest ih =>
    intro f links k hf hlen hnd hfresh
    simp only [processPage]
    have hm : containerLink c ∉ links := hfresh c (List.mem_cons_self _ _)
    rw [if_neg (show ¬(containerLink c ∈ links ∧ uniq = true) from fun h => hm h.1)]
    by_cases hbr : n ≤ f + 1
    · rw [if_pos hbr]; dsimp only; omega
    · rw [if_neg hbr]
      dsimp only
      apply ih (f + 1) (addLink links (containerLink c)) (k + 1) (by omega)
      · simp only [List.length_cons] at hlen; omega
      · exact (List.nodup_cons.mp (by simpa using hnd)).2
      · intro c' hc'
        intro hmem
        rcases mem_addLink.mp hmem with hl | he
        · exact hfresh c' (List.mem_cons_of_mem _ hc') hl
        · exact (List.nodup_cons.mp (by simpa using hnd)).1
            (he ▸ List.mem_map_of_mem containerLink hc')

/-- The `while` loop always finishes: from `fetched_results = f` it runs at
most `num_results - f + 1` iterations, because every iteration that does
not end the loop strictly increases `fetched_results`. -/
theorem searchLoop_term (pages : Nat → List Container) (advanced uniq : Bool)
    (n : Nat) :
    ∀ (fuel start f : Nat) (links : List String), n - f < fuel →
      ∃ r, searchLoop pages advanced uniq n fuel start f links = some r := by
  intro fuel
  induction fuel with
  | zero => intro start f links h; omega
  | succ fuel ih =>
    intro start f links h
    simp only [searchLoop]
    by_cases hf : f < n
    · rw [if_pos hf]
      by_cases hz : (processPage advanced uniq n (pages start) f links 0).newRes = 0
      · rw [if_pos hz]; exact ⟨_, rfl⟩
      · rw [if_neg hz]
        have hlock := processPage_lockstep advanced uniq n (pages start) f links 0
        obtain ⟨r, hr⟩ := ih (start + 10)
          (processPage advanced uniq n (pages start) f links 0).fetched
          (processPage advanced uniq n (pages start) f links 0).links (by omega)
        rw [hr]
        exact ⟨_, rfl⟩
    · rw [if_neg hf]; exact ⟨_, rfl⟩

/-- The number of yields of a terminated loop is the increase of
`fetched_results`, which never passes `num_results`. -/
theorem searchLoop_len (pages : Nat → List Container) (advanced uniq : Bool)
    (n : Nat) :
    ∀ (fuel start f : Nat) (links : List String) (r : RunResult),
      searchLoop pages advanced uniq n fuel start f links = some r →
      r.yields.length + f = r.fetched ∧ (f ≤ n → r.fetched ≤ n) := by
  intro fuel
  induction fuel with
  | zero => intro start f links r h; exact Option.noConfusion h
  | succ fuel ih =>
    intro start f links r h
    simp only [searchLoop] at h
    by_cases hf : f < n
    · rw [if_pos hf] at h
      by_cases hz : (processPage advanced uniq n (pages start) f links 0).newRes = 0
      · rw [if_pos hz] at h
        injection h with h
        subst h
        have hlen := processPage_len advanced uniq n (pages start) f links 0
        have hlock := processPage_lockstep advanced uniq n (pages start) f links 0
        have hcap := processPage_cap advanced uniq n (pages start) f links 0 hf
        exact ⟨by dsimp only; omega, fun _ => by dsimp only; omega⟩
      · rw [if_neg hz] at h
        rcases hrec : searchLoop pages advanced uniq n fuel (start + 10)
            (processPage advanced uniq n (pages start) f links 0).fetched
            (processPage advanced uniq n (pages start) f links 0).links with _ | r'
        · rw [hrec] at h; exact Option.noConfusion h
        · rw [hrec] at h
          injection h with h
          subst h
          obtain ⟨ihl, ihc⟩ := ih _ _ _ _ hrec
          have hlen := processPage_len advanced uniq n (pages start) f links 0
          have hlock := processPage_lockstep advanced uniq n (pages start) f links 0
          have hcap := processPage_cap advanced uniq n (pages start) f links 0 hf
          constructor
          · dsimp only; rw [List.length_append]; omega
          · intro _; dsimp only; exact ihc (by omega)
    · rw [if_neg hf] at h
      injection h with h
      subst h
      exact ⟨by simp, fun hle => hle⟩

/-- With `unique=true` a terminated loop yields pairwise distinct URLs,
none of which was in the set it started from. -/
theorem searchLoop_nodup (pages : Nat → List Container) (advanced : Bool)
    (n : Nat) :
    ∀ (fuel start f : Nat) (links : List String) (r : RunResult),
      searchLoop pages advanced true n fuel start f links = some r →
      (r.yields.map yieldedUrl).Nodup ∧
      ∀ u ∈ r.yields.map yieldedUrl, u ∉ links := by
  intro fuel
  induction fuel with
  | zero => intro start f links r h; exact Option.noConfusion h
  | succ fuel ih =>
    intro start f links r h
    simp only [searchLoop] at h
    by_cases hf : f < n
    · rw [if_pos hf] at h
      by_cases hz : (processPage advanced true n (pages start) f links 0).newRes = 0
      · rw [if_pos hz] at h
        injection h with h
        subst h
        exact processPage_unique advanced n (pages start) f links 0
      · rw [if_neg hz] at h
        rcases hrec : searchLoop pages advanced true n fuel (start + 10)
            (processPage advanced true n (pages start) f links 0).fetched
            (processPage advanced true n (pages start) f links 0).links with _ | r'
        · rw [hrec] at h; exact Option.noConfusion h
        · rw [hrec] at h
          injection h with h
          subst h
          obtain ⟨ihn, ihf⟩ := ih _ _ _ _ hrec
          obtain ⟨hpn, hpf⟩ := processPage_unique advanced n (pages start) f links 0
          dsimp only
          rw [List.map_append]
          constructor
          · rw [List.nodup_append]
            refine ⟨hpn, ihn, fun u hu hu' => ?_⟩
            have : u ∈ (processPage advanced true n (pages start) f links 0).links := by
              obtain ⟨y, hy, hyu⟩ := List.mem_map.mp hu
              exact hyu ▸ processPage_yield_links advanced true n (pages start) f links 0 y hy
            exact ihf u hu' this
          · intro u hu
            rcases List.mem_append.mp hu with hu' | hu'
            · exact hpf u hu'
            · exact fun hl => ihf u hu'
                (processPage_links_mono advanced true n (pages start) f links 0 u hl)
    · rw [if_neg hf] at h
      injection h with h
      subst h
      constructor
      · simp
      · intro u hu; simp at hu

/-- Every URL a terminated loop yields is the extraction of some container
of some fetched page. -/
theorem searchLoop_origin (pages : Nat → List Container) (advanced uniq : Bool)
    (n : Nat) :
    ∀ (fuel start f : Nat) (links : List String) (r : RunResult),
      searchLoop pages advanced uniq n fuel start f links = some r →
      ∀ y ∈ r.yields, ∃ off, ∃ c ∈ pages off, yieldedUrl y = containerLink c := by
  intro fuel
  induction fuel with
  | zero => intro start f links r h; exact Option.noConfusion h
  | succ fuel ih =>
    intro start f links r h
    simp only [searchLoop] at h
    by_cases hf : f < n
    · rw [if_pos hf] at h
      by_cases hz : (processPage advanced uniq n (pages start) f links 0).newRes = 0
      · rw [if_pos hz] at h
        injection h with h
        subst h
        intro y hy
        obtain ⟨c, hc, he⟩ :=
          processPage_origin advanced uniq n (pages start) f links 0 y hy
        exact ⟨start, c, hc, he⟩
      · rw [if_neg hz] at h
        rcases hrec : searchLoop pages advanced uniq n fuel (start + 10)
            (processPage advanced uniq n (pages start) f links 0).fetched
            (processPage advanced uniq n (pages start) f links 0).links with _ | r'
        · rw [hrec] at h; exact Option.noConfusion h
        · rw [hrec] at h
          injection h with h
          subst h
          intro y hy
          dsimp only at hy
          rcases List.mem_append.mp hy with hy' | hy'
          · obtain ⟨c, hc, he⟩ :=
              processPage_origin advanced uniq n (pages start) f links 0 y hy'
            exact ⟨start, c, hc, he⟩
          · exact ih _ _ _ _ hrec y hy'
    · rw [if_neg hf] at h
      injection h with h
      subst h
      intro y hy
      simp at hy

/-- In plain mode a terminated loop yields only bare URL strings. -/
theorem searchLoop_url_shape (pages : Nat → List Container) (uniq : Bool)
    (n : Nat) :
    ∀ (fuel start f : Nat) (links : List String) (r : RunResult),
      searchLoop pages false uniq n fuel start f links = some r →
      ∀ y ∈ r.yields, ∃ u, y = Yielded.url u := by
  intro fuel
  induction fuel with
  | zero => intro start f links r h; exact Option.noConfusion h
  | succ fuel ih =>
    intro start f links r h
    simp only [searchLoop] at h
    by_cases hf : f < n
    · rw [if_pos hf] at h
      by_cases hz : (processPage false uniq n (pages start) f links 0).newRes = 0
      · rw [if_pos hz] at h
        injection h with h
        subst h
        exact processPage_url_shape uniq n (pages start) f links 0
      · rw [if_neg hz] at h
        rcases hrec : searchLoop pages false uniq n fuel (start + 10)
            (processPage false uniq n (pages start) f links 0).fetched
            (processPage false uniq n (pages start) f links 0).links with _ | r'
        · rw [hrec] at h; exact Option.noConfusion h
        · rw [hrec] at h
          injection h with h
          subst h
          intro y hy
          dsimp only at hy
          rcases List.mem_append.mp hy with hy' | hy'
          · exact processPage_url_shape uniq n (pages start) f links 0 y hy'
          · exact ih _ _ _ _ hrec y hy'
    · rw [if_neg hf] at h
      injection h with h
      subst h
      intro y hy
      simp at hy

/-- With `unique=false` the yields of the loop do not depend on the
contents of the seen-URL set. -/
theorem searchLoop_indep (pages : Nat → List Container) (advanced : Bool)
    (n : Nat) :
    ∀ (fuel start f : Nat) (a b : List String),
      (searchLoop pages advanced false n fuel start f a).map (fun r => r.yields) =
      (searchLoop pages advanced false n fuel start f b).map (fun r => r.yields) := by
  intro fuel
  induction fuel with
  | zero => intro start f a b; rfl
  | succ fuel ih =>
    intro start f a b
    simp only [searchLoop]
    by_cases hf : f < n
    · rw [if_pos hf, if_pos hf]
      obtain ⟨hys, hfe, hnr⟩ := processPage_indep advanced n (pages start) f a b 0
      by_cases hz : (processPage advanced false n (pages start) f a 0).newRes = 0
      · rw [if_pos hz, if_pos (hnr ▸ hz)]
        simp only [Option.map_some']
        rw [hys]
      · rw [if_neg hz, if_neg (hnr ▸ hz), hfe]
        have hrec := ih (start + 10)
          (processPage advanced false n (pages start) f b 0).fetched
          (processPage advanced false n (pages start) f a 0).links
          (processPage advanced false n (pages start) f b 0).links
        rcases h1 : searchLoop pages advanced false n fuel (start + 10)
            (processPage advanced false n (pages start) f b 0).fetched
            (processPage advanced false n (pages start) f a 0).links with _ | ra <;>
          rcases h2 : searchLoop pages advanced false n fuel (start + 10)
              (processPage advanced false n (pages start) f b 0).fetched
              (processPage advanced false n (pages start) f b 0).links with _ | rb <;>
          rw [h1, h2] at hrec
        · simp only [Option.map_none', Option.map_some'] at hrec
          exact Option.noConfusion hrec
        · simp only [Option.map_none', Option.map_some'] at hrec
          exact Option.noConfusion hrec
        · simp only [Option.map_some', Option.some.injEq] at hrec ⊢
          rw [hys, hrec]
    · rw [if_neg hf, if_neg hf]
      rfl

/-- A first page with at least `num_results` containers of pairwise
distinct URLs drives the run, started from a fresh state, to exactly
`num_results` yields. -/
theorem searchLoop_first_page_exact (pages : Nat → List Container)
    (advanced uniq : Bool) (n stn : Nat) :
    ∀ (fuel : Nat) (r : RunResult), 1 ≤ fuel →
      ((pages stn).map containerLink).Nodup → n ≤ (pages stn).length →
      searchLoop pages advanced uniq n (fuel + 1) stn 0 [] = some r →
      r.yields.length = n := by
  intro fuel r hfuel hnd hlen h
  rcases Nat.eq_zero_or_pos n with hn | hn
  · subst hn
    simp only [searchLoop] at h
    rw [if_neg (by omega)] at h
    injection h with h
    subst h
    rfl
  · simp only [searchLoop] at h
    rw [if_pos (by omega)] at h
    have hfe : (processPage advanced uniq n (pages stn) 0 [] 0).fetched = n :=
      processPage_fresh_exact advanced uniq n (pages stn) 0 [] 0 (by omega)
        (by omega) hnd (fun c _ => List.not_mem_nil _)
    have hlock := processPage_lockstep advanced uniq n (pages stn) 0 [] 0
    have hplen := processPage_len advanced uniq n (pages stn) 0 [] 0
    rw [if_neg (show ¬(processPage advanced uniq n (pages stn) 0 [] 0).newRes = 0 by
      omega)] at h
    rcases hrec : searchLoop pages advanced uniq n fuel (stn + 10)
        (processPage advanced uniq n (pages stn) 0 [] 0).fetched
        (processPage advanced uniq n (pages stn) 0 [] 0).links with _ | r'
    · obtain ⟨r'', hr''⟩ := searchLoop_term pages advanced uniq n fuel (stn + 10)
        (processPage advanced uniq n (pages stn) 0 [] 0).fetched
        (processPage advanced uniq n (pages stn) 0 [] 0).links (by omega)
      rw [hrec] at hr''
      exact Option.noConfusion hr''
    · rw [hrec] at h
      injection h with h
      subst h
      obtain ⟨hrl, hrc⟩ := searchLoop_len pages advanced uniq n _ _ _ _ _ hrec
      have : r'.fetched ≤ n := hrc (by omega)
      dsimp only
      rw [List.length_append]
      omega

/-! ## Date lemmas -/

theorem digitVal_digitChar : ∀ d : Nat, d < 10 → digitVal (Nat.digitChar d) = d := by
  decide

theorem isDigitChar_digitChar : ∀ d : Nat, d < 10 →
    isDigitChar (Nat.digitChar d) = true := by
  decide

theorem digitChar_ne_dash : ∀ d : Nat, d < 10 → Nat.digitChar d ≠ '-' := by decide

theorem isDigitChar_ne_dash {c : Char} (h : isDigitChar c = true) : c ≠ '-' := by
  intro he
  subst he
  exact absurd h (by decide)

theorem isDigitChar_ne_slash {c : Char} (h : isDigitChar c = true) : c ≠ '/' := by
  intro he
  subst he
  exact absurd h (by decide)

theorem pad2Chars_all_digits {n : Nat} (h : n < 100) :
    ∀ c ∈ pad2Chars n, isDigitChar c = true := by
  intro c hc
  have h1 : n / 10 < 10 := by omega
  have h2 : n % 10 < 10 := by omega
  simp only [pad2Chars, List.mem_cons, List.not_mem_nil, or_false] at hc
  rcases hc with rfl | rfl
  · exact isDigitChar_digitChar _ h1
  · exact isDigitChar_digitChar _ h2

theorem pad4Chars_all_digits {n : Nat} (h : n < 10000) :
    ∀ c ∈ pad4Chars n, isDigitChar c = true := by
  intro c hc
  rcases List.mem_append.mp hc with hc' | hc'
  · exact pad2Chars_all_digits (by omega) c hc'
  · exact pad2Chars_all_digits (by omega) c hc'

theorem foldl_pad2 {n : Nat} (h : n < 100) (a : Nat) :
    (pad2Chars n).foldl (fun acc c => acc * 10 + digitVal c) a = a * 100 + n := by
  have h1 : n / 10 < 10 := by omega
  have h2 : n % 10 < 10 := by omega
  simp only [pad2Chars, List.foldl_cons, List.foldl_nil,
    digitVal_digitChar _ h1, digitVal_digitChar _ h2]
  omega

theorem numToken_of_digits {t : List Char} (hne : t ≠ [])
    (hd : ∀ c ∈ t, isDigitChar c = true) :
    numToken t = some (t.foldl (fun a c => a * 10 + digitVal c) 0) := by
  have hcond : (!t.isEmpty && t.all isDigitChar) = true := by
    simp only [Bool.and_eq_true, Bool.not_eq_true', List.all_eq_true]
    constructor
    · cases t with
      | nil => exact absurd rfl hne
      | cons _ _ => rfl
    · exact hd
  unfold numToken
  rw [if_pos hcond]

theorem numToken_pad2 {n : Nat} (h : n < 100) : numToken (pad2Chars n) = some n := by
  rw [numToken_of_digits (by simp [pad2Chars]) (pad2Chars_all_digits h),
    foldl_pad2 h 0]
  simp

theorem numToken_pad4 {n : Nat} (h : n < 10000) :
    numToken (pad4Chars n) = some n := by
  rw [numToken_of_digits (by simp [pad4Chars, pad2Chars]) (pad4Chars_all_digits h)]
  simp only [pad4Chars, List.foldl_append]
  rw [foldl_pad2 (show n / 100 < 100 by omega) 0,
    foldl_pad2 (show n % 100 < 100 by omega)]
  simp only [Option.some.injEq]
  omega

theorem pad2Chars_length (n : Nat) : (pad2Chars n).length = 2 := rfl

theorem pad4Chars_length (n : Nat) : (pad4Chars n).length = 4 := rfl

theorem splitChar_noSep {sep : Char} :
    ∀ {l : List Char}, (∀ c ∈ l, c ≠ sep) → splitChar sep l = [l] := by
  intro l
  induction l with
  | nil => intro _; rfl
  | cons c cs ih =>
    intro h
    simp only [splitChar]
    rw [if_neg (h c (List.mem_cons_self _ _)),
      ih (fun x hx => h x (List.mem_cons_of_mem _ hx))]
    rfl

theorem splitChar_append {sep : Char} {b : List Char} :
    ∀ {a : List Char}, (∀ c ∈ a, c ≠ sep) →
      splitChar sep (a ++ sep :: b) = a :: splitChar sep b := by
  intro a
  induction a with
  | nil =>
    intro _
    simp [splitChar]
  | cons c cs ih =>
    intro h
    simp only [List.cons_append, splitChar, List.append_eq]
    rw [if_neg (h c (List.mem_cons_self _ _)),
      ih (fun x hx => h x (List.mem_cons_of_mem _ hx))]
    rfl

theorem validDate_bounds {d : Date} (h : validDate d = true) :
    1 ≤ d.month ∧ d.month ≤ 12 ∧ 1 ≤ d.day ∧ d.day ≤ 31 ∧ d.year ≤ 9999 := by
  simp only [validDate, Bool.and_eq_true, decide_eq_true_eq] at h
  obtain ⟨⟨⟨⟨h1, h2⟩, h3⟩, h4⟩, h5⟩ := h
  have hdm : daysInMonth d.year d.month ≤ 31 := by
    simp only [daysInMonth]
    split
    · split <;> omega
    · split <;> omega
  exact ⟨h1, h2, h3, by omega, h5⟩

theorem formatChars_classify {d : Date} (h : validDate d = true) :
    ∀ c ∈ formatChars d, isDigitChar c = true ∨ c = '/' := by
  obtain ⟨h1, h2, h3, h4, h5⟩ := validDate_bounds h
  intro c hc
  simp only [formatChars, List.mem_append, List.mem_cons] at hc
  rcases hc with hc | hc | hc
  · exact Or.inl (pad2Chars_all_digits (by omega) c hc)
  · exact Or.inr hc
  · rcases hc with hc | hc | hc
    · exact Or.inl (pad2Chars_all_digits (by omega) c hc)
    · exact Or.inr hc
    · exact Or.inl (pad4Chars_all_digits (by omega) c hc)

theorem mkDate_valid {m d y : Nat} {dt : Date} (h : mkDate m d y = some dt) :
    validDate dt = true := by
  simp only [mkDate] at h
  split at h
  · injection h with h
    subst h
    assumption
  · exact Option.noConfusion h

theorem parseNumericTokens_valid {t1 t2 t3 : List Char} {dt : Date}
    (h : parseNumericTokens t1 t2 t3 = some dt) : validDate dt = true := by
  simp only [parseNumericTokens] at h
  split at h
  · split at h
    · exact mkDate_valid h
    · exact Option.noConfusion h
  · split at h
    · split at h
      · exact mkDate_valid h
      · exact Option.noConfusion h
    · exact Option.noConfusion h

theorem parseMonthName_valid {cs : List Char} {dt : Date}
    (h : parseMonthName cs = some dt) : validDate dt = true := by
  simp only [parseMonthName] at h
  split at h
  · split at h
    · split at h
      · split at h
        · split at h
          · exact mkDate_valid h
          · exact Option.noConfusion h
        · exact Option.noConfusion h
      · exact Option.noConfusion h
    · exact Option.noConfusion h
  · exact Option.noConfusion h

theorem parseSlashSplit_valid {ts : List (List Char)} {cs : List Char} {dt : Date}
    (h : parseSlashSplit ts cs = some dt) : validDate dt = true := by
  rcases ts with _ | ⟨t1, _ | ⟨t2, _ | ⟨t3, _ | _⟩⟩⟩ <;>
    simp only [parseSlashSplit] at h <;>
    first
      | exact parseMonthName_valid h
      | exact parseNumericTokens_valid h

theorem parseDashSplit_valid {ts : List (List Char)} {cs : List Char} {dt : Date}
    (h : parseDashSplit ts cs = some dt) : validDate dt = true := by
  rcases ts with _ | ⟨t1, _ | ⟨t2, _ | ⟨t3, _ | _⟩⟩⟩ <;>
    simp only [parseDashSplit] at h <;>
    first
      | exact parseSlashSplit_valid h
      | exact parseNumericTokens_valid h

theorem parseDateChars_valid {cs : List Char} {dt : Date}
    (h : parseDateChars cs = some dt) : validDate dt = true :=
  parseDashSplit_valid h

/-- Formatting then re-parsing gives the date back: the `mm/dd/yyyy` output
of `strftime` is one of the numeric forms the parser accepts. -/
theorem parseDateChars_formatChars {dt : Date} (h : validDate dt = true) :
    parseDateChars (formatChars dt) = some dt := by
  obtain ⟨h1, h2, h3, h4, h5⟩ := validDate_bounds h
  have hnodash : ∀ c ∈ formatChars dt, c ≠ '-' := by
    intro c hc
    rcases formatChars_classify h c hc with hd | hd
    · exact isDigitChar_ne_dash hd
    · subst hd; decide
  have hsplit1 : splitChar '-' (formatChars dt) = [formatChars dt] :=
    splitChar_noSep hnodash
  have hm : ∀ c ∈ pad2Chars dt.month, c ≠ '/' :=
    fun c hc => isDigitChar_ne_slash (pad2Chars_all_digits (by omega) c hc)
  have hd : ∀ c ∈ pad2Chars dt.day, c ≠ '/' :=
    fun c hc => isDigitChar_ne_slash (pad2Chars_all_digits (by omega) c hc)
  have hy : ∀ c ∈ pad4Chars dt.year, c ≠ '/' :=
    fun c hc => isDigitChar_ne_slash (pad4Chars_all_digits (by omega) c hc)
  have hsplit2 : splitChar '/' (formatChars dt) =
      [pad2Chars dt.month, pad2Chars dt.day, pad4Chars dt.year] := by
    rw [formatChars, splitChar_append hm, splitChar_append hd, splitChar_noSep hy]
  rw [parseDateChars, hsplit1]
  simp only [parseDashSplit]
  rw [hsplit2]
  simp only [parseSlashSplit, parseNumericTokens, pad2Chars_length, pad4Chars_length,
    reduceIte]
  rw [numToken_pad2 (show dt.month < 100 by omega),
    numToken_pad2 (show dt.day < 100 by omega),
    numToken_pad4 (show dt.year < 10000 by omega)]
  simp only [mkDate]
  rw [if_pos (show validDate ⟨dt.month, dt.day, dt.year⟩ = true from h)]
  rw [if_neg (show ¬(2 = 4) by omega)]

/-- A successfully formatted date string parses, so it is nonempty. -/
theorem format_date_ok_nonempty {d f : String} (h : format_date d = .ok f) :
    d ≠ "" := by
  intro he
  subst he
  have hz : format_date "" = .error "Could not parse date input: " := by decide
  rw [hz] at h
  exact Except.noConfusion h

/-- Formatting is idempotent on its own output: the `mm/dd/yyyy` string
re-parses to the same date and re-formats to itself. -/
theorem format_date_idem {s t : String} (h : format_date s = .ok t) :
    format_date t = .ok t := by
  unfold format_date at h
  rcases hp : parseDateChars s.data with _ | dt <;> rw [hp] at h
  · exact Except.noConfusion h
  · injection h with h
    subst h
    have hv := parseDateChars_valid hp
    unfold format_date
    rw [show (strftime_mdY dt).data = formatChars dt from rfl,
      parseDateChars_formatChars hv]

theorem truthy_of_ok {d f : String} (h : format_date d = .ok f) :
    truthy (some d) = true := by
  have hne := format_date_ok_nonempty h
  simp [truthy, hne]

/-- `get_date_range_tbs` with only a start bound: the bound is used for
both ends. -/
theorem get_date_range_tbs_start {d f : String} (h : format_date d = .ok f) :
    get_date_range_tbs (some d) none =
      .ok (some ("cdr:1,cd_min:" ++ f ++ ",cd_max:" ++ f)) := by
  have hne := format_date_ok_nonempty h
  simp [get_date_range_tbs, truthy, hne, h]

/-- `get_date_range_tbs` with both bounds equal. -/
theorem get_date_range_tbs_both {d f : String} (h : format_date d = .ok f) :
    get_date_range_tbs (some d) (some d) =
      .ok (some ("cdr:1,cd_min:" ++ f ++ ",cd_max:" ++ f)) := by
  have hne := format_date_ok_nonempty h
  simp [get_date_range_tbs, truthy, hne, h]

/-- `get_date_range_tbs` with only an end bound. -/
theorem get_date_range_tbs_end {d f : String} (h : format_date d = .ok f) :
    get_date_range_tbs none (some d) =
      .ok (some ("cdr:1,cd_min:" ++ f ++ ",cd_max:" ++ f)) := by
  have hne := format_date_ok_nonempty h
  simp [get_date_range_tbs, truthy, hne, h]

/-- An unparseable truthy start date makes `get_date_range_tbs` fail with
the `ValueError` carrying that input, whatever the end bound is. -/
theorem get_date_range_tbs_error_start {s : String} (hne : s ≠ "")
    (hp : parseDateChars s.data = none) (ed : Option String) :
    get_date_range_tbs (some s) ed =
      .error ("Could not parse date input: " ++ s) := by
  have hf : format_date s = .error ("Could not parse date input: " ++ s) := by
    unfold format_date
    rw [hp]
  simp [get_date_range_tbs, truthy, hne, hf]

/-- An unparseable truthy end date (with no start) also fails: the end
bound is copied into the start before formatting. -/
theorem get_date_range_tbs_error_end {s : String} (hne : s ≠ "")
    (hp : parseDateChars s.data = none) :
    get_date_range_tbs none (some s) =
      .error ("Could not parse date input: " ++ s) := by
  have hf : format_date s = .error ("Could not parse date input: " ++ s) := by
    unfold format_date
    rw [hp]
  simp [get_date_range_tbs, truthy, hne, hf]

/-- A date-filter failure aborts `search` before the loop: the outcome does
not depend on `pages` at all (no request is issued). -/
theorem search_tbs_error {sd ed : Option String} {e : String}
    (h : get_date_range_tbs sd ed = .error e) (pages : Nat → List Container)
    (n : Nat) (advanced uniq : Bool) (stn : Nat) :
    search pages n advanced uniq stn sd ed = .error e := by
  unfold search
  rw [h]

/-- Loop-level monotonicity of the seen-URL set. -/
theorem searchLoop_links_mono (pages : Nat → List Container)
    (advanced uniq : Bool) (n : Nat) :
    ∀ (fuel start f : Nat) (links : List String) (r : RunResult),
      searchLoop pages advanced uniq n fuel start f links = some r →
      ∀ u ∈ links, u ∈ r.links := by
  intro fuel
  induction fuel with
  | zero => intro start f links r h; exact Option.noConfusion h
  | succ fuel ih =>
    intro start f links r h
    simp only [searchLoop] at h
    by_cases hf : f < n
    · rw [if_pos hf] at h
      by_cases hz : (processPage advanced uniq n (pages start) f links 0).newRes = 0
      · rw [if_pos hz] at h
        injection h with h
        subst h
        exact fun u hu =>
          processPage_links_mono advanced uniq n (pages start) f links 0 u hu
      · rw [if_neg hz] at h
        rcases hrec : searchLoop pages advanced uniq n fuel (start + 10)
            (processPage advanced uniq n (pages start) f links 0).fetched
            (processPage advanced uniq n (pages start) f links 0).links with _ | r'
        · rw [hrec] at h; exact Option.noConfusion h
        · rw [hrec] at h
          injection h with h
          subst h
          intro u hu
          exact ih _ _ _ _ hrec u
            (processPage_links_mono advanced uniq n (pages start) f links 0 u hu)
    · rw [if_neg hf] at h
      injection h with h
      subst h
      exact fun u hu => hu

/-- Every URL a terminated loop yields is recorded in its final seen-URL
set — also when uniqueness was not requested. -/
theorem searchLoop_yield_links (pages : Nat → List Container)
    (advanced uniq : Bool) (n : Nat) :
    ∀ (fuel start f : Nat) (links : List String) (r : RunResult),
      searchLoop pages advanced uniq n fuel start f links = some r →
      ∀ y ∈ r.yields, yieldedUrl y ∈ r.links := by
  intro fuel
  induction fuel with
  | zero => intro start f links r h; exact Option.noConfusion h
  | succ fuel ih =>
    intro start f links r h
    simp only [searchLoop] at h
    by_cases hf : f < n
    · rw [if_pos hf] at h
      by_cases hz : (processPage advanced uniq n (pages start) f links 0).newRes = 0
      · rw [if_pos hz] at h
        injection h with h
        subst h
        exact processPage_yield_links advanced uniq n (pages start) f links 0
      · rw [if_neg hz] at h
        rcases hrec : searchLoop pages advanced uniq n fuel (start + 10)
            (processPage advanced uniq n (pages start) f links 0).fetched
            (processPage advanced uniq n (pages start) f links 0).links with _ | r'
        · rw [hrec] at h; exact Option.noConfusion h
        · rw [hrec] at h
          injection h with h
          subst h
          intro y hy
          dsimp only at hy ⊢
          rcases List.mem_append.mp hy with hy' | hy'
          · exact searchLoop_links_mono pages advanced uniq n fuel _ _ _ _ hrec _
              (processPage_yield_links advanced uniq n (pages start) f links 0 y hy')
          · exact ih _ _ _ _ hrec y hy'
    · rw [if_neg hf] at h
      injection h with h
      subst h
      intro y hy
      simp at hy

/-- Processing a single fresh container yields it and records its link. -/
theorem processPage_single (advanced uniq : Bool) (n : Nat) (c : Container) :
    processPage advanced uniq n [c] 0 [] 0 =
      ⟨[mkYield advanced c], 1, [containerLink c], 1⟩ := by
  simp only [processPage]
  rw [if_neg (show ¬(containerLink c ∈ ([] : List String) ∧ uniq = true) from
    fun hh => List.not_mem_nil _ hh.1)]
  by_cases hbr : n ≤ 0 + 1
  · rw [if_pos hbr]
    simp [addLink]
  · rw [if_neg hbr]
    simp [processPage, addLink]

/-- A run over a remote that has exactly one container on the first page
and nothing afterwards yields exactly that container's record. -/
theorem searchLoop_single (pages : Nat → List Container) (advanced uniq : Bool)
    (n stn fuel : Nat) (c : Container) (h1 : pages stn = [c])
    (h2 : pages (stn + 10) = []) (hn : 1 ≤ n) (hf : 1 ≤ fuel) :
    searchLoop pages advanced uniq n (fuel + 1) stn 0 [] =
      some ⟨[mkYield advanced c], 1, [containerLink c]⟩ := by
  simp only [searchLoop]
  rw [if_pos (show 0 < n by omega), h1, processPage_single advanced uniq n c]
  rw [if_neg (show ¬(PageResult.mk [mkYield advanced c] 1 [containerLink c] 1).newRes = 0
    from by dsimp only; omega)]
  have hinner : searchLoop pages advanced uniq n fuel (stn + 10) 1
      [containerLink c] = some ⟨[], 1, [containerLink c]⟩ := by
    rcases fuel with _ | g
    · omega
    · simp only [searchLoop]
      by_cases hlt : 1 < n
      · rw [if_pos hlt, h2]
        rw [if_pos (show (processPage advanced uniq n [] 1 [containerLink c] 0).newRes = 0
          from rfl)]
        rfl
      · rw [if_neg hlt]
  rw [hinner]
  rfl

example : searchLoop (fun off => if off = 7 then [⟨some "ua", none, some "D"⟩] else [])
    true false 3 4 7 0 [] = some ⟨[.result ⟨"ua", "", "D"⟩], 1, ["ua"]⟩ := by
  decide

/-- Unfolding of `search` on a successful run: either the fuelled loop
(which the termination theorem shows impossible) gave `none` and the output
is `[]`, or it terminated and the output is its yields. -/
theorem search_ok_elim (pages : Nat → List Container) (n : Nat)
    (advanced uniq : Bool) (stn : Nat) (sd ed : Option String)
    (ys : List Yielded) :
    search pages n advanced uniq stn sd ed = .ok ys →
    (searchLoop pages advanced uniq n (n + 1) stn 0 [] = none ∧ ys = []) ∨
    (∃ r, searchLoop pages advanced uniq n (n + 1) stn 0 [] = some r ∧
      ys = r.yields) := by
  intro h
  unfold search at h
  rcases htbs : get_date_range_tbs sd ed with e | t <;> rw [htbs] at h
  · exact Except.noConfusion h
  · rcases hsl : searchLoop pages advanced uniq n (n + 1) stn 0 [] with _ | r <;>
      rw [hsl] at h
    · injection h with h
      exact Or.inl ⟨rfl, h.symm⟩
    · injection h with h
      exact Or.inr ⟨r, rfl, h.symm⟩

/-! ## Test fixtures: concrete remotes -/

/-- Two overlapping pages: `ub` appears on both. -/
def ovPages : Nat → List Container := fun off =>
  if off = 0 then [⟨some "ua", none, none⟩, ⟨some "ub", none, none⟩]
  else if off = 10 then [⟨some "ub", none, none⟩, ⟨some "uc", none, none⟩]
  else []

/-- A remote that returns the same three distinct results on every page. -/
def pages3fix : Nat → List Container := fun _ =>
  [⟨some "ua", none, none⟩, ⟨some "ub", none, none⟩, ⟨some "uc", none, none⟩]

/-- One container whose href holds the wrapping marker in the middle. -/
def c7pages : Nat → List Container := fun off =>
  if off = 0 then [⟨some "http://e.com/url?q=abc", none, none⟩] else []

/-- A normal container followed by an anchor-less one. -/
def c8pages : Nat → List Container := fun off =>
  if off = 0 then [⟨some "ua", none, none⟩, ⟨none, some "T", some "D"⟩] else []

/-- A single ordinary container on every page. -/
def c9pages : Nat → List Container := fun _ => [⟨some "ua", none, none⟩]

/-- Two anchor-less containers, then an ordinary one, on the first page. -/
def c10pages : Nat → List Container := fun off =>
  if off = 0 then
    [⟨none, some "T", some "D"⟩, ⟨none, none, none⟩, ⟨some "ua", none, none⟩]
  else []

/-! ## Claims -/

/-- C1: with `unique=true` no URL is ever yielded twice across the whole
run — a seen URL is skipped without being counted and without ending the
page — and in the concrete two-page overlap scenario the shared URL `ub`
comes out exactly once while the page keeps being processed (`uc` still
arrives after the skip). -/
theorem claim_C1 :
    (∀ (pages : Nat → List Container) (n : Nat) (advanced : Bool)
       (stn : Nat) (sd ed : Option String) (ys : List Yielded),
       search pages n advanced true stn sd ed = .ok ys →
       (ys.map yieldedUrl).Nodup) ∧
    search ovPages 10 false true 0 none none =
      .ok [.url "ua", .url "ub", .url "uc"] ∧
    (([Yielded.url "ua", .url "ub", .url "uc"].map yieldedUrl).count "ub" = 1) := by
  refine ⟨?_, by decide, by decide⟩
  intro pages n advanced stn sd ed ys h
  rcases search_ok_elim pages n advanced true stn sd ed ys h with ⟨_, rfl⟩ | ⟨r, hsl, rfl⟩
  · exact List.nodup_nil
  · exact (searchLoop_nodup pages advanced n _ _ _ _ _ hsl).1

/-- C1 witness: the general part applied to the concrete overlap run. -/
theorem claim_C1_witness :
    (([Yielded.url "ua", .url "ub", .url "uc"] : List Yielded).map yieldedUrl).Nodup :=
  claim_C1.1 ovPages 10 false 0 none none _ (by decide)

/-- C2: every run yields at most `num_results` elements; in plain mode all
of them are bare URL strings; and when the first page already holds at
least `num_results` containers with pairwise distinct URLs the run yields
exactly `num_results` elements. -/
theorem claim_C2 :
    ∀ (pages : Nat → List Container) (n : Nat) (advanced uniq : Bool)
      (stn : Nat) (sd ed : Option String) (ys : List Yielded),
      search pages n advanced uniq stn sd ed = .ok ys →
      ys.length ≤ n ∧
      (advanced = false → ∀ y ∈ ys, ∃ u, y = Yielded.url u) ∧
      (((pages stn).map containerLink).Nodup → n ≤ (pages stn).length →
        ys.length = n) := by
  intro pages n advanced uniq stn sd ed ys h
  rcases search_ok_elim pages n advanced uniq stn sd ed ys h with
    ⟨hnone, rfl⟩ | ⟨r, hsl, rfl⟩
  · refine ⟨by simp, fun _ y hy => absurd hy (List.not_mem_nil y), fun _ _ => ?_⟩
    obtain ⟨r, hr⟩ := searchLoop_term pages advanced uniq n (n + 1) stn 0 [] (by omega)
    rw [hnone] at hr
    exact Option.noConfusion hr
  · obtain ⟨hl, hc⟩ := searchLoop_len pages advanced uniq n _ _ _ _ _ hsl
    refine ⟨by omega, ?_, ?_⟩
    · intro hadv
      subst hadv
      exact searchLoop_url_shape pages uniq n _ _ _ _ _ hsl
    · intro hnd hlen
      rcases Nat.eq_zero_or_pos n with hz | hpos
      · omega
      · exact searchLoop_first_page_exact pages advanced uniq n stn n r hpos hnd hlen hsl

/-- C2 witness: three distinct first-page results with `num_results=3` in
plain mode give exactly three URL strings. -/
theorem claim_C2_witness :
    search pages3fix 3 false false 0 none none =
      .ok [.url "ua", .url "ub", .url "uc"] ∧
    ([Yielded.url "ua", .url "ub", .url "uc"] : List Yielded).length ≤ 3 ∧
    ([Yielded.url "ua", .url "ub", .url "uc"] : List Yielded).length = 3 := by
  refine ⟨by decide, ?_, ?_⟩
  · exact (claim_C2 pages3fix 3 false false 0 none none _ (by decide)).1
  · exact (claim_C2 pages3fix 3 false false 0 none none _ (by decide)).2.2
      (by decide) (by decide)

/-- C3: the pagination loop always terminates — `num_results + 1`
iterations of fuel always suffice — and a remote that only ever returns the
same three distinct results ends a `num_results=5`, `unique=true` run
gracefully at three yields, with a normal (`.ok`) outcome. -/
theorem claim_C3 :
    (∀ (pages : Nat → List Container) (advanced uniq : Bool) (n stn : Nat),
      ∃ r, searchLoop pages advanced uniq n (n + 1) stn 0 [] = some r) ∧
    search pages3fix 5 false true 0 none none =
      .ok [.url "ua", .url "ub", .url "uc"] := by
  refine ⟨?_, by decide⟩
  intro pages advanced uniq n stn
  exact searchLoop_term pages advanced uniq n (n + 1) stn 0 [] (by omega)

/-- C4: for a formattable date `d`, supplying it as only the start bound,
as both bounds, or as only the end bound produces the same
`cdr:1,cd_min:<f>,cd_max:<f>` token, and two absent bounds produce an
absent filter. -/
theorem claim_C4 :
    ∀ (d f : String), format_date d = .ok f →
      get_date_range_tbs (some d) none =
        .ok (some ("cdr:1,cd_min:" ++ f ++ ",cd_max:" ++ f)) ∧
      get_date_range_tbs (some d) (some d) =
        .ok (some ("cdr:1,cd_min:" ++ f ++ ",cd_max:" ++ f)) ∧
      get_date_range_tbs none (some d) =
        .ok (some ("cdr:1,cd_min:" ++ f ++ ",cd_max:" ++ f)) ∧
      get_date_range_tbs none none = .ok none :=
  fun _ _ h =>
    ⟨get_date_range_tbs_start h, get_date_range_tbs_both h,
      get_date_range_tbs_end h, rfl⟩

/-- C4 witness: the three equal tokens at the concrete date `2004-10-20`. -/
theorem claim_C4_witness :
    get_date_range_tbs (some "2004-10-20") none =
      .ok (some ("cdr:1,cd_min:" ++ "10/20/2004" ++ ",cd_max:" ++ "10/20/2004")) ∧
    get_date_range_tbs (some "2004-10-20") (some "2004-10-20") =
      .ok (some ("cdr:1,cd_min:" ++ "10/20/2004" ++ ",cd_max:" ++ "10/20/2004")) ∧
    get_date_range_tbs none (some "2004-10-20") =
      .ok (some ("cdr:1,cd_min:" ++ "10/20/2004" ++ ",cd_max:" ++ "10/20/2004")) ∧
    get_date_range_tbs none none = .ok none :=
  claim_C4 "2004-10-20" "10/20/2004" (by decide)

/-- C5: `format_date` is idempotent on its own output. -/
theorem claim_C5 :
    ∀ (s t : String), format_date s = .ok t → format_date t = .ok t :=
  fun _ _ h => format_date_idem h

/-- C5 witness: idempotence at the month-name form `October 20, 2004`. -/
theorem claim_C5_witness :
    format_date "October 20, 2004" = .ok "10/20/2004" ∧
    format_date "10/20/2004" = .ok "10/20/2004" :=
  ⟨by decide, claim_C5 "October 20, 2004" "10/20/2004" (by decide)⟩

/-- C6 (amended): for every NONEMPTY input string that the date parser
cannot resolve, `format_date` fails with the `ValueError` carrying the
original input, and `search` given it as `start_date` or as `end_date`
propagates exactly that error whatever the remote would answer — the
outcome is the same for every `pages`, i.e. no request is consulted.  (The
empty string is excluded: it is falsy, so `get_date_range_tbs` skips
formatting entirely and `search` runs normally.) -/
theorem claim_C6 :
    ∀ s : String, s ≠ "" → parseDateChars s.data = none →
      format_date s = .error ("Could not parse date input: " ++ s) ∧
      (∀ (ed : Option String) (pages : Nat → List Container) (n : Nat)
        (advanced uniq : Bool) (stn : Nat),
        search pages n advanced uniq stn (some s) ed =
          .error ("Could not parse date input: " ++ s)) ∧
      (∀ (pages : Nat → List Container) (n : Nat) (advanced uniq : Bool)
        (stn : Nat),
        search pages n advanced uniq stn none (some s) =
          .error ("Could not parse date input: " ++ s)) := by
  intro s hne hp
  refine ⟨by unfold format_date; rw [hp], ?_, ?_⟩
  · intro ed pages n advanced uniq stn
    exact search_tbs_error (get_date_range_tbs_error_start hne hp ed) pages n
      advanced uniq stn
  · intro pages n advanced uniq stn
    exact search_tbs_error (get_date_range_tbs_error_end hne hp) pages n
      advanced uniq stn

/-- C6 witness: the unparseable string `notadate` aborts a search before
any page is taken. -/
theorem claim_C6_witness :
    format_date "notadate" = .error ("Could not parse date input: " ++ "notadate") ∧
    search (fun _ => []) 1 false false 0 (some "notadate") none =
      .error ("Could not parse date input: " ++ "notadate") :=
  ⟨(claim_C6 "notadate" (by decide) (by decide)).1,
   (claim_C6 "notadate" (by decide) (by decide)).2.1 none (fun _ => []) 1
     false false 0⟩

/-- C6 counterexample: the empty string cannot be resolved to a calendar
date — `format_date` errors on it — yet a search given it as `start_date`
raises nothing and runs its requests normally, because `""` is falsy in the
`if start_date or end_date:` test. -/
theorem claim_C6_counterexample :
    format_date "" = .error "Could not parse date input: " ∧
    search pages3fix 5 false true 0 (some "") none =
      .ok [.url "ua", .url "ub", .url "uc"] := by
  exact ⟨by decide, by decide⟩

/-- The URL transformation exactly as the specification words it: keep the
part before the first `&`, remove the wrapping marker `/url?q=` only as a
LEADING piece of the string, then percent-decode.  Stated to compare with
the source's `extractLink`, whose `str.replace` removes every occurrence
anywhere in the string. -/
def extractLink_specLeadingOnly (href : String) : String :=
  let kept := (splitChar '&' href.data).headD []
  ⟨unquoteChars
    (if ("/url?q=".data).isPrefixOf kept then kept.drop ("/url?q=".data).length
     else kept)⟩

/-- C7 counterexample: for an href carrying `/url?q=` in the middle, the
code deletes it (Python's `replace` removes every occurrence), so the URL
put into the output is NOT the spec's keep-before-`&` / strip-leading-wrap /
percent-decode of the href. -/
theorem claim_C7_counterexample :
    search c7pages 10 false false 0 none none = .ok [.url "http://e.comabc"] ∧
    extractLink_specLeadingOnly "http://e.com/url?q=abc" = "http://e.com/url?q=abc" ∧
    ("http://e.comabc" : String) ≠ "http://e.com/url?q=abc" := by
  exact ⟨by decide, by decide, by decide⟩

/-- C7 (amended): every URL placed in the output is its container's href
transformed by keeping the part before the first `&`, removing EVERY
occurrence of the substring `/url?q=` (not only a leading one), and
percent-decoding; a container with no anchor contributes the empty
string. -/
theorem claim_C7 :
    ∀ (pages : Nat → List Container) (n : Nat) (advanced uniq : Bool)
      (stn : Nat) (sd ed : Option String) (ys : List Yielded),
      search pages n advanced uniq stn sd ed = .ok ys →
      ∀ y ∈ ys, ∃ off, ∃ c ∈ pages off,
        yieldedUrl y =
          (match c.href with
           | some h =>
             (⟨unquoteChars
                (removeAll "/url?q=".data ((splitChar '&' h.data).headD []))⟩ : String)
           | none => "") := by
  intro pages n advanced uniq stn sd ed ys h y hy
  rcases search_ok_elim pages n advanced uniq stn sd ed ys h with
    ⟨_, rfl⟩ | ⟨r, hsl, rfl⟩
  · exact absurd hy (List.not_mem_nil y)
  · obtain ⟨off, c, hc, he⟩ :=
      searchLoop_origin pages advanced uniq n _ _ _ _ _ hsl y hy
    refine ⟨off, c, hc, ?_⟩
    rw [he]
    cases hh : c.href <;> simp [containerLink, extractLink, hh]

/-- C7 witness: the amended transformation at the concrete run. -/
theorem claim_C7_witness :
    ∃ off, ∃ c ∈ c7pages off,
      yieldedUrl (Yielded.url "http://e.comabc") =
        (match c.href with
         | some h =>
           (⟨unquoteChars
              (removeAll "/url?q=".data ((splitChar '&' h.data).headD []))⟩ : String)
         | none => "") :=
  claim_C7 c7pages 10 false false 0 none none [.url "http://e.comabc"]
    (by decide) (Yielded.url "http://e.comabc") (by decide)

/-- C8 counterexample: a parsed container whose anchor is missing is not
always yielded — here the result cap is reached before it, so the run ends
with no record for it (no empty-URL element appears). -/
theorem claim_C8_counterexample :
    search c8pages 1 false false 0 none none = .ok [.url "ua"] ∧
    Yielded.url "" ∉ ([.url "ua"] : List Yielded) := by
  exact ⟨by decide, by decide⟩

/-- C8 (amended): a missing anchor, title span or description span never
raises an error and degrades the corresponding field to the empty string;
such a container is yielded exactly like any other container — whenever the
loop actually reaches it with capacity left and it is not dropped by the
uniqueness skip (the cap and the skip can still suppress it). -/
theorem claim_C8 :
    ∀ (c : Container) (uniq : Bool) (n stn : Nat), 1 ≤ n →
      search (fun off => if off = stn then [c] else []) n true uniq stn
          none none =
        .ok [Yielded.result
          ⟨(match c.href with | some h => extractLink h | none => ""),
           (match c.href, c.titleSpan with | some _, some t => t | _, _ => ""),
           (match c.descr with | some dsc => dsc | none => "")⟩] := by
  intro c uniq n stn hn
  unfold search
  rw [show get_date_range_tbs none none = Except.ok none from rfl]
  rcases n with _ | m
  · omega
  · rw [searchLoop_single (fun off => if off = stn then [c] else []) true uniq
      (m + 1) stn (m + 1) c (by simp)
      (by have hne10 : ¬(stn + 10 = stn) := by omega
          simp [hne10])
      (by omega) (by omega)]
    cases hh : c.href <;> cases ht : c.titleSpan <;> cases hd : c.descr <;>
      simp [mkYield, containerLink, containerTitle, containerDescr, hh, ht, hd,
        extractLink]

/-- C8 witness: a container with every sub-element missing is still
yielded, as a record of three empty strings, with no error. -/
theorem claim_C8_witness :
    search (fun off => if off = 0 then [(⟨none, none, none⟩ : Container)] else [])
        1 true false 0 none none =
      .ok [Yielded.result ⟨"", "", ""⟩] :=
  claim_C8 ⟨none, none, none⟩ false 1 0 (by omega)

/-- C9 counterexample: a `unique=false` run in which the seen-URL set ends
up nonempty — the loop adds every yielded URL to it unconditionally, so it
does not remain empty. -/
theorem claim_C9_counterexample :
    searchLoop c9pages false false 1 2 0 0 [] =
      some ⟨[.url "ua"], 1, ["ua"]⟩ ∧
    (["ua"] : List String) ≠ [] := by
  exact ⟨by decide, by decide⟩

/-- C9 (amended): with `unique=false` the seen-URL set is inert but not
empty: the yields of the loop are identical whatever the set holds (the
skip test never fires, so the set is never consulted in a way that affects
the output), yet every yielded URL is inserted into it. -/
theorem claim_C9 :
    (∀ (pages : Nat → List Container) (advanced : Bool) (n fuel stn f : Nat)
      (a b : List String),
      (searchLoop pages advanced false n fuel stn f a).map (fun r => r.yields) =
      (searchLoop pages advanced false n fuel stn f b).map (fun r => r.yields)) ∧
    (∀ (pages : Nat → List Container) (advanced : Bool) (n fuel stn f : Nat)
      (links : List String) (r : RunResult),
      searchLoop pages advanced false n fuel stn f links = some r →
      ∀ y ∈ r.yields, yieldedUrl y ∈ r.links) := by
  constructor
  · intro pages advanced n fuel stn f a b
    exact searchLoop_indep pages advanced n fuel stn f a b
  · intro pages advanced n fuel stn f links r h
    exact searchLoop_yield_links pages advanced false n fuel stn f links r h

/-- C9 witness: in the concrete `unique=false` run the yielded URL `ua` is
recorded in the final seen-URL set. -/
theorem claim_C9_witness :
    yieldedUrl (Yielded.url "ua") ∈ (["ua"] : List String) :=
  claim_C9.2 c9pages false 1 2 0 0 [] ⟨[.url "ua"], 1, ["ua"]⟩ (by decide)
    (Yielded.url "ua") (by decide)

/-- C10: with `unique=true` the empty string is de-duplicated like any real
URL, so at most one output element carries an empty URL; in the concrete
run with two anchor-less containers only the first produces an element
(the second is skipped while the page keeps being processed) and `""` sits
in the seen-URL set next to the real URL. -/
theorem claim_C10 :
    (∀ (pages : Nat → List Container) (n : Nat) (advanced : Bool)
      (stn : Nat) (sd ed : Option String) (ys : List Yielded),
      search pages n advanced true stn sd ed = .ok ys →
      (ys.map yieldedUrl).count "" ≤ 1) ∧
    searchLoop c10pages false true 10 11 0 0 [] =
      some ⟨[.url "", .url "ua"], 2, ["ua", ""]⟩ := by
  refine ⟨?_, by decide⟩
  intro pages n advanced stn sd ed ys h
  rcases search_ok_elim pages n advanced true stn sd ed ys h with
    ⟨_, rfl⟩ | ⟨r, hsl, rfl⟩
  · simp
  · exact List.nodup_iff_count_le_one.mp
      (searchLoop_nodup pages advanced n _ _ _ _ _ hsl).1 ""

/-- C10 witness: the empty URL appears exactly once, hence at most once, in
the concrete run's output. -/
theorem claim_C10_witness :
    (([Yielded.url "", .url "ua"] : List Yielded).map yieldedUrl).count "" ≤ 1 :=
  claim_C10.1 c10pages 10 false 0 none none _ (by decide)

end Googlesearch
